import Mathlib

/-!
A verification development for the multi-strategy retrieval-and-fusion
pipeline of project-polaris.  The Python sources under `src/` are embedded
shallowly: LangChain `Document` values become the `Document` structure below,
Python dicts become insertion-ordered association lists, floating point
scores become rationals (`ℚ`), and fallible collaborator calls (the Supabase
client, the LLM, the cross-encoder) become `Except`-valued functions supplied
as parameters.  Python's built-in `hash` of a content string is modelled as
the string itself (injective), which is the identity policy the code relies
on; CPython's `id` of a content-string object is modelled by an explicit
`oid : Nat` field carried by each document.
-/

namespace Polaris

/-- A metadata value: the pipeline stores strings and numeric scores. -/
inductive MetaVal where
  | mstr : String → MetaVal
  | mnum : ℚ → MetaVal
deriving DecidableEq, Repr

/-- Model of a LangChain `Document`: `page_content` plus a metadata dict
(insertion-ordered association list).  `oid` models CPython's `id` of the
`page_content` string object: two documents may carry equal content but
distinct `oid`s (separate fetches), and equal `oid`s imply the same string
object, hence equal content. -/
structure Document where
  page_content : String
  oid : Nat
  metadata : List (String × MetaVal)
deriving DecidableEq, Repr

/-- Dict lookup on a metadata association list (first binding wins,
as in a Python dict where keys are unique). -/
def metaLookup : List (String × MetaVal) → String → Option MetaVal
  | [], _ => none
  | p :: ps, k => if p.1 = k then some p.2 else metaLookup ps k

/-- `metadata.get(key, default)` for a numeric read, as used by the score
filters: a missing key yields the default. -/
def metaGetNum (m : List (String × MetaVal)) (k : String) (d : ℚ) : ℚ :=
  match metaLookup m k with
  | some (MetaVal.mnum q) => q
  | some (MetaVal.mstr _) => d
  | none => d

/-- `{**metadata, key: value}`: replace the binding in place if the key is
present, otherwise append it (Python dict update order). -/
def metaSet : List (String × MetaVal) → String → MetaVal → List (String × MetaVal)
  | [], k, v => [(k, v)]
  | p :: ps, k, v => if p.1 = k then (k, v) :: ps else p :: metaSet ps k v

/-- Identity of a document as used for fusion deduplication: the stored
`"id"` metadata entry when present, else the content fingerprint
(`str(hash(page_content))`, with `hash` modelled injectively). -/
inductive DocId where
  | stored : String → DocId
  | contentHash : String → DocId
deriving DecidableEq, Repr

/-- `str()` of a metadata value. -/
def mvalString : MetaVal → String
  | MetaVal.mstr s => s
  | MetaVal.mnum q => toString q

/-- `ReciprocalRankFusion._get_doc_id`: stored id if the metadata has an
`"id"` key, else the content hash. -/
def get_doc_id (doc : Document) : DocId :=
  match metaLookup doc.metadata "id" with
  | some v => DocId.stored (mvalString v)
  | none => DocId.contentHash doc.page_content

/-- Helper for `pySplit`: scan the characters, accumulating the current
token in reverse; whitespace closes the token (empty tokens are dropped). -/
def pySplitChars : List Char → List Char → List String
  | [], cur => if cur.isEmpty then [] else [String.mk cur.reverse]
  | c :: cs, cur =>
    if c.isWhitespace then
      (if cur.isEmpty then [] else [String.mk cur.reverse]) ++ pySplitChars cs []
    else pySplitChars cs (c :: cur)

/-- Python's `str.split()` with no separator: split on whitespace runs and
drop empty tokens. -/
def pySplit (s : String) : List String :=
  pySplitChars s.data []

/-- Python's `str.lower()`, character by character. -/
def pyLower (s : String) : String :=
  String.mk (s.data.map Char.toLower)

/-- Python's `str.strip()`: drop whitespace from both ends. -/
def pyStrip (s : String) : String :=
  String.mk (((s.data.dropWhile Char.isWhitespace).reverse.dropWhile Char.isWhitespace).reverse)

/-- The retrieval configuration consumed from `config.settings`. -/
structure Settings where
  enable_hyde : Bool
  enable_reranking : Bool
  enable_hybrid : Bool
  top_k_retrieval : Nat
  top_k_final : Nat
  similarity_threshold : ℚ
deriving DecidableEq, Repr

/-- `AdvancedRAGRetriever._select_strategy`: pick a strategy from the
whitespace token count of the query and the feature flags. -/
def select_strategy (cfg : Settings) (query : String) : String :=
  if (pySplit query).length < 5 then "simple"
  else if (pySplit query).length < 15 ∧ cfg.enable_hybrid then "hybrid"
  else if cfg.enable_hyde then "advanced"
  else if cfg.enable_hybrid then "hybrid"
  else "simple"

/-- Amended strategy table (written from the corrected claim wording):
fewer than 5 tokens gives `simple`; 5 to 14 tokens gives `hybrid` when
hybrid is enabled, else `advanced` when HyDE is enabled, else `simple`;
15 or more tokens gives `advanced` when HyDE is enabled, else `hybrid`
when hybrid is enabled, else `simple`. -/
def selectStrategyAmended (cfg : Settings) (query : String) : String :=
  if (pySplit query).length < 5 then "simple"
  else if (pySplit query).length < 15 then
    if cfg.enable_hybrid then "hybrid"
    else if cfg.enable_hyde then "advanced"
    else "simple"
  else
    if cfg.enable_hyde then "advanced"
    else if cfg.enable_hybrid then "hybrid"
    else "simple"

/-- Substring containment over character lists, modelling Python's
`term in text`. -/
def strContains (s pat : String) : Bool :=
  (List.range (s.data.length + 1)).any (fun i => pat.data.isPrefixOf (s.data.drop i))

/-- `SupabaseVectorStoreWrapper._simple_keyword_score`: fraction of
lowercased query tokens occurring in the lowercased text, 0.0 for an empty
token list. -/
def simple_keyword_score (query text : String) : ℚ :=
  if (pySplit (pyLower query)).isEmpty then 0
  else (((pySplit (pyLower query)).filter
          (fun term => strContains (pyLower text) term)).length : ℚ) /
        ((pySplit (pyLower query)).length : ℚ)

/-- Insert `x` into a list already sorted by descending `key`: `x` goes
before the first element whose key is at most `key x`.  Folding this over a
list from the right reproduces exactly the behavior of Python's stable
`sort`/`sorted` with `reverse=True`: equal keys keep their original relative
order. -/
def insertDesc (key : α → ℚ) (x : α) : List α → List α
  | [] => [x]
  | y :: ys => if key y ≤ key x then x :: y :: ys else y :: insertDesc key x ys

/-- Python's stable descending sort by a numeric key. -/
def pySortDesc (key : α → ℚ) (l : List α) : List α :=
  l.foldr (insertDesc key) []

/-- `AdvancedRAGRetriever._filter_by_threshold`: keep the documents whose
`'score'` metadata entry (default 1.0) reaches the threshold; if none
survives, return the input unchanged. -/
def filter_by_threshold (similarity_threshold : ℚ) (documents : List Document) :
    List Document :=
  if (documents.filter
      (fun doc => decide (similarity_threshold ≤ metaGetNum doc.metadata "score" 1))).isEmpty
  then documents
  else documents.filter
    (fun doc => decide (similarity_threshold ≤ metaGetNum doc.metadata "score" 1))

/-- The claim's notion of a document's best-known relevance score: the
rerank score when present, else the raw similarity score, else 1.0. -/
def bestKnownScore (doc : Document) : ℚ :=
  match metaLookup doc.metadata "rerank_score" with
  | some (MetaVal.mnum q) => q
  | _ =>
    match metaLookup doc.metadata "score" with
    | some (MetaVal.mnum q) => q
    | _ => 1

/-- `CrossEncoderReranker.rerank`: `predict` models the cross-encoder
(`none` when the model failed to construct, and the call itself may error).
With no scorer, an empty candidate list, or a scoring error it returns the
first `top_k` candidates unchanged; otherwise it stably sorts by descending
score, attaches the score as `rerank_score`, and truncates to `top_k`. -/
def rerank (predict : Option (List (String × String) → Except Unit (List ℚ)))
    (query : String) (documents : List Document) (top_k : Nat) : List Document :=
  match predict with
  | none => documents.take top_k
  | some f =>
    if documents.isEmpty then documents.take top_k
    else
      match f (documents.map (fun d => (query, d.page_content))) with
      | Except.error _ => documents.take top_k
      | Except.ok scores =>
        ((pySortDesc Prod.snd (documents.zip scores)).take top_k).map
          (fun p => { p.1 with
            metadata := metaSet p.1.metadata "rerank_score" (MetaVal.mnum p.2) })

/-- The generation loop of `HyDERetriever._generate_hypotheses`: the single
`try` wraps the whole loop, so the first erroring LLM call discards the
accumulator and yields `[query]`; a generation that strips to the empty
string is skipped. -/
def genLoop (query : String) : List (Except Unit String) → List String → List String
  | [], acc => acc
  | Except.ok r :: rest, acc =>
    if (pyStrip r).isEmpty then genLoop query rest acc
    else genLoop query rest (acc ++ [pyStrip r])
  | Except.error _ :: _, _ => [query]

/-- `HyDERetriever._generate_hypotheses`: run the loop over the outcomes of
the successive LLM calls; `hypotheses or [query]` falls back to the query
when nothing was collected. -/
def generate_hypotheses (outcomes : List (Except Unit String)) (query : String) :
    List String :=
  if (genLoop query outcomes []).isEmpty then [query] else genLoop query outcomes []

/-- Is this outcome an exception? -/
def isErr : Except Unit String → Bool
  | Except.error _ => true
  | Except.ok _ => false

/-- Mirror of the amended C5 claim for hypothesis generation: if any LLM
call raises, the original query is the sole hypothesis (previously
generated ones are discarded); otherwise the non-empty stripped completions
are used, and if there are none the original query is used. -/
def generateHypothesesSpec (outcomes : List (Except Unit String)) (query : String) :
    List String :=
  if outcomes.any isErr then [query]
  else
    let hs := outcomes.filterMap (fun o =>
      match o with
      | Except.ok r => if (pyStrip r).isEmpty then none else some (pyStrip r)
      | Except.error _ => none)
    if hs.isEmpty then [query] else hs

/-- The retrieval loop of `HyDERetriever.retrieve`: search the store with
each hypothesis, concatenating the results; an exception aborts the loop. -/
def searchLoop (store : String → Except Unit (List Document)) :
    List String → List Document → Except Unit (List Document)
  | [], acc => Except.ok acc
  | h :: hs, acc =>
    match store h with
    | Except.ok docs => searchLoop store hs (acc ++ docs)
    | Except.error e => Except.error e

/-- Helper for `deduplicate_documents`, carrying the set of content
fingerprints already seen. -/
def dedupLoop : List Document → List String → List Document
  | [], _ => []
  | d :: ds, seen =>
    if d.page_content ∈ seen then dedupLoop ds seen
    else d :: dedupLoop ds (d.page_content :: seen)

/-- `HyDERetriever._deduplicate_documents`: drop later documents with an
already-seen content hash, preserving first-seen order. -/
def deduplicate_documents (documents : List Document) : List Document :=
  dedupLoop documents []

/-- `HyDERetriever.retrieve`: generate hypotheses, search the store with
each, deduplicate and truncate; if the retrieval loop throws, fall back to
a plain vector search on the original query. -/
def hyde_retrieve (store : String → Except Unit (List Document))
    (outcomes : List (Except Unit String)) (query : String) (k : Nat) :
    Except Unit (List Document) :=
  match searchLoop store (generate_hypotheses outcomes query) [] with
  | Except.ok all_documents =>
    Except.ok ((deduplicate_documents all_documents).take k)
  | Except.error _ => store query

end Polaris

namespace Polaris

/-- An example configuration with hybrid disabled and HyDE enabled,
used to exhibit the strategy-selection fallthrough. -/
def cfgHydeOnly : Settings :=
  { enable_hyde := true, enable_reranking := false, enable_hybrid := false,
    top_k_retrieval := 10, top_k_final := 5, similarity_threshold := 0 }

/-- A document whose rerank score (0) is below any positive threshold. -/
def dLow : Document := ⟨"low-scoring passage", 1, [("rerank_score", MetaVal.mnum 0)]⟩

/-- A document whose rerank score (2) is above any threshold up to 2. -/
def dHigh : Document := ⟨"high-scoring passage", 2, [("rerank_score", MetaVal.mnum 2)]⟩

/-- Plain sample candidates with no metadata. -/
def p1 : Document := ⟨"passage one", 11, []⟩

/-- Plain sample candidate. -/
def p2 : Document := ⟨"passage two", 12, []⟩

/-- Plain sample candidate. -/
def p3 : Document := ⟨"passage three", 13, []⟩

/-- Plain sample candidate. -/
def p4 : Document := ⟨"passage four", 14, []⟩

/-- `doc_scores[doc_id] += rrf_score` on the insertion-ordered
`defaultdict(float)`: update the binding in place when the key is present,
else append it (a missing key reads as 0). -/
def bump : List (DocId × ℚ) → DocId → ℚ → List (DocId × ℚ)
  | [], i, v => [(i, v)]
  | p :: ps, i, v => if p.1 = i then (p.1, p.2 + v) :: ps else p :: bump ps i v

/-- `if doc_id not in doc_objects: doc_objects[doc_id] = doc` — keep the
first occurrence for each identity. -/
def addObj : List (DocId × Document) → DocId → Document → List (DocId × Document)
  | [], i, d => [(i, d)]
  | p :: ps, i, d => if p.1 = i then p :: ps else p :: addObj ps i d

/-- Dict lookup in the fusion's `doc_objects`. -/
def lookupObj : List (DocId × Document) → DocId → Option Document
  | [], _ => none
  | p :: ps, i => if p.1 = i then some p.2 else lookupObj ps i

/-- `defaultdict(float)` read in the fusion's `doc_scores`. -/
def lookupScore : List (DocId × ℚ) → DocId → ℚ
  | [], _ => 0
  | p :: ps, i => if p.1 = i then p.2 else lookupScore ps i

/-- The inner loop of `ReciprocalRankFusion.fuse` over one ranked list:
`for rank, doc in enumerate(ranked_list, start=1)`, accumulating
`weight / (k + rank)` into the scores and first occurrences into the
objects.  The 1-based integer rank is carried directly as a rational. -/
def fuseList (k w : ℚ) : List Document → ℚ →
    List (DocId × ℚ) × List (DocId × Document) →
    List (DocId × ℚ) × List (DocId × Document)
  | [], _, st => st
  | d :: ds, r, st =>
    fuseList k w ds (r + 1)
      (bump st.1 (get_doc_id d) (w / (k + r)), addObj st.2 (get_doc_id d) d)

/-- The outer loop of `ReciprocalRankFusion.fuse` over
`zip(weights, ranked_lists)`. -/
def fuseAccum (k : ℚ) : List (ℚ × List Document) →
    List (DocId × ℚ) × List (DocId × Document) →
    List (DocId × ℚ) × List (DocId × Document)
  | [], st => st
  | (w, l) :: rest, st => fuseAccum k rest (fuseList k w l 1 st)

/-- Default to equal weights 1.0 when none are given. -/
def fuseWeights (ranked_lists : List (List Document)) (weights : Option (List ℚ)) :
    List ℚ :=
  match weights with
  | some ws => ws
  | none => List.replicate ranked_lists.length 1

/-- Build one output document: the retained first-occurrence object with
the fused score added to its metadata (`doc_objects[doc_id]` cannot miss,
so the `none` branch is unreachable and dropped by `filterMap`). -/
def attachRRF (objs : List (DocId × Document)) (p : DocId × ℚ) : Option Document :=
  match lookupObj objs p.1 with
  | some d =>
    some { d with metadata := metaSet d.metadata "rrf_score" (MetaVal.mnum p.2) }
  | none => none

/-- `ReciprocalRankFusion.fuse`: accumulate weighted reciprocal-rank
scores and first-occurrence objects over all lists, sort the score items
stably by descending score, and emit each retained document with its
`rrf_score`. -/
def fuse (k : ℚ) (ranked_lists : List (List Document)) (weights : Option (List ℚ)) :
    List Document :=
  if ranked_lists.isEmpty then []
  else
    (pySortDesc Prod.snd
        (fuseAccum k ((fuseWeights ranked_lists weights).zip ranked_lists) ([], [])).1).filterMap
      (attachRRF (fuseAccum k ((fuseWeights ranked_lists weights).zip ranked_lists) ([], [])).2)

/-- Spec-side reciprocal-rank contribution of one weighted list to the
identity `i`, with ranks counted from `r`. -/
def listContrib (k w : ℚ) : List Document → ℚ → DocId → ℚ
  | [], _, _ => 0
  | d :: ds, r, i =>
    (if get_doc_id d = i then w / (k + r) else 0) + listContrib k w ds (r + 1) i

/-- Spec-side fused score of identity `i`: the sum over all weighted lists
of `w / (k_rrf + rank)` at every rank where `i` occurs (1-based). -/
def rrfSpecScore (k : ℚ) (pairs : List (ℚ × List Document)) (i : DocId) : ℚ :=
  (pairs.map (fun wl => listContrib k wl.1 wl.2 1 i)).sum

/-- Left-to-right first-seen accumulation of identities. -/
def firstSeenAcc : List DocId → List DocId → List DocId
  | acc, [] => acc
  | acc, i :: is2 => firstSeenAcc (if i ∈ acc then acc else acc ++ [i]) is2

/-- The distinct identities of the input lists in the order first
encountered while scanning the lists left to right. -/
def firstSeenIds (lists : List (List Document)) : List DocId :=
  firstSeenAcc [] (lists.flatten.map get_doc_id)

/-- First document with the given identity in a flat scan. -/
def findDoc : List Document → DocId → Option Document
  | [], _ => none
  | d :: ds, i => if get_doc_id d = i then some d else findDoc ds i

/-- First occurrence of identity `i` across the input lists, scanned left
to right. -/
def firstOcc (lists : List (List Document)) (i : DocId) : Option Document :=
  findDoc lists.flatten i

/-- Option fallback, first operand wins. -/
def optOr : Option Document → Option Document → Option Document
  | some d, _ => some d
  | none, b => b

/-- Sample passage with content A. -/
def docA : Document := ⟨"contentA", 21, []⟩

/-- Sample passage with content B. -/
def docB : Document := ⟨"contentB", 22, []⟩

/-- A second fetch of the content-A passage: same content (hence the same
identity), a different string object. -/
def docA2 : Document := ⟨"contentA", 23, []⟩

/-- A second fetch of the content-B passage. -/
def docB2 : Document := ⟨"contentB", 24, []⟩

/-- `max(scores) if scores else default`. -/
def pyMax (l : List ℚ) (d : ℚ) : ℚ :=
  match l with
  | [] => d
  | x :: xs => xs.foldl max x

/-- `min(scores) if scores else default`. -/
def pyMin (l : List ℚ) (d : ℚ) : ℚ :=
  match l with
  | [] => d
  | x :: xs => xs.foldl min x

/-- The inner `normalize_scores` of
`SupabaseVectorStoreWrapper._combine_results`: min-max scale each score
(range 1.0 when all scores are equal, so every item normalizes to 0). -/
def normalize_scores (results : List (Document × ℚ)) : List (Document × ℚ) :=
  if results.isEmpty then []
  else
    results.map (fun p =>
      (p.1, (p.2 - pyMin (results.map Prod.snd) 0) /
        (if pyMax (results.map Prod.snd) 1 ≠ pyMin (results.map Prod.snd) 0 then
          pyMax (results.map Prod.snd) 1 - pyMin (results.map Prod.snd) 0
        else 1)))

/-- `doc_scores[doc_id] = entry` in the combiner's first loop: plain dict
assignment keyed by `id(doc.page_content)`, i.e. by `oid`. -/
def storePut : List (Nat × (Document × ℚ × ℚ)) → Nat → Document × ℚ × ℚ →
    List (Nat × (Document × ℚ × ℚ))
  | [], i, v => [(i, v)]
  | e :: es, i, v => if e.1 = i then (i, v) :: es else e :: storePut es i v

/-- The combiner's second loop: when the `oid` key is present, set that
entry's keyword score; otherwise insert a new entry with vector score 0. -/
def kwStep : List (Nat × (Document × ℚ × ℚ)) → Nat → Document → ℚ →
    List (Nat × (Document × ℚ × ℚ))
  | [], i, d, s => [(i, (d, 0, s))]
  | e :: es, i, d, s =>
    if e.1 = i then (e.1, (e.2.1, e.2.2.1, s)) :: es else e :: kwStep es i d s

/-- `SupabaseVectorStoreWrapper._combine_results`: normalize both lists,
merge them into a dict keyed by `id(doc.page_content)` (modelled by
`oid`), compute `vector_score·wv + keyword_score·wk` per entry, and sort
stably by descending combined score. -/
def combine_results (vector_results keyword_results : List (Document × ℚ))
    (vector_weight keyword_weight : ℚ) : List Document :=
  (pySortDesc Prod.snd
    (((normalize_scores keyword_results).foldl
        (fun m p => kwStep m p.1.oid p.1 p.2)
        ((normalize_scores vector_results).foldl
          (fun m p => storePut m p.1.oid (p.1, p.2, 0)) [])).map
      (fun e => (e.2.1, e.2.2.1 * vector_weight + e.2.2.2 * keyword_weight)))).map
    Prod.fst

/-- Vector-search hit A, content `"contentA"`, raw score 9/10. -/
def vA : Document := ⟨"contentA", 31, []⟩

/-- Vector-search hit B, content `"contentB"`, raw score 1/2. -/
def vB : Document := ⟨"contentB", 32, []⟩

/-- Keyword-search hit with the same content as `vB` but a distinct
content-string object (a separate fetch), raw score 1. -/
def kB : Document := ⟨"contentB", 33, []⟩

/-- Keyword-search hit C, content `"contentC"`, raw score 1/2. -/
def kC : Document := ⟨"contentC", 34, []⟩

/-- The raw collaborators of the pipeline, each allowed to throw: the
underlying Supabase vector-store client (with and without scores), the
full-text and ILIKE fallback queries, the LangChain multi-query retriever,
the successive LLM completions, and the optional cross-encoder. -/
structure Env where
  innerSearch : String → Nat → Except Unit (List Document)
  innerSearchWithScore : String → Nat → Except Unit (List (Document × ℚ))
  textSearch : String → Nat → Except Unit (List Document)
  ilikeSearch : String → Nat → Except Unit (List Document)
  multiQuery : String → Nat → Except Unit (List Document)
  llmOutcomes : List (Except Unit String)
  predict : Option (List (String × String) → Except Unit (List ℚ))

/-- `SupabaseVectorStoreWrapper.similarity_search` with no score
threshold: the whole body is wrapped in `try/except`, so a throwing client
yields the empty list rather than an exception. -/
def similarity_search (env : Env) (query : String) (k : Nat) : List Document :=
  match env.innerSearch query k with
  | Except.ok results => results
  | Except.error _ => []

/-- `SupabaseVectorStoreWrapper.similarity_search_with_score`: likewise
guarded, returning `[]` on failure. -/
def similarity_search_with_score (env : Env) (query : String) (k : Nat) :
    List (Document × ℚ) :=
  match env.innerSearchWithScore query k with
  | Except.ok results => results
  | Except.error _ => []

/-- `SupabaseVectorStoreWrapper._keyword_search`: full-text search scored
by `_simple_keyword_score`; on failure fall back to an ILIKE substring
query; if that also fails return `[]`. -/
def keyword_search (env : Env) (query : String) (k : Nat) : List (Document × ℚ) :=
  match env.textSearch query k with
  | Except.ok rows => rows.map (fun d => (d, simple_keyword_score query d.page_content))
  | Except.error _ =>
    match env.ilikeSearch query k with
    | Except.ok rows => rows.map (fun d => (d, simple_keyword_score query d.page_content))
    | Except.error _ => []

/-- `SupabaseVectorStoreWrapper.hybrid_search`: vector and keyword
candidates at `2k` each, combined and truncated to `k`.  The source wraps
this in a `try/except` falling back to `similarity_search`, but each step
here is already guarded, so the handler is unreachable. -/
def hybrid_search (env : Env) (query : String) (k : Nat) (vw kw : ℚ) : List Document :=
  (combine_results (similarity_search_with_score env query (k * 2))
    (keyword_search env query (k * 2)) vw kw).take k

/-- `AdvancedRAGRetriever._simple_retrieve`. -/
def simple_retrieve (env : Env) (query : String) (k : Nat) : List Document :=
  similarity_search env query k

/-- `AdvancedRAGRetriever._hybrid_retrieve` with the fixed weights
0.7/0.3. -/
def hybrid_retrieve (env : Env) (query : String) (k : Nat) : List Document :=
  hybrid_search env query k (7 / 10) (3 / 10)

/-- `AdvancedRAGRetriever._hyde_retrieve`: a `HyDERetriever` over the
wrapper store.  That store never throws, so the HyDE branch always
succeeds and the `error` case is unreachable. -/
def hyde_branch (env : Env) (query : String) (k : Nat) : List Document :=
  match hyde_retrieve (fun q => Except.ok (similarity_search env q k))
      env.llmOutcomes query k with
  | Except.ok r => r
  | Except.error _ => []

/-- `AdvancedRAGRetriever._multi_query_retrieve`: the LangChain retriever
is asked for `k // 3` per variant; on failure fall back to a simple
retrieve at `k`. -/
def multi_query_retrieve (env : Env) (query : String) (k : Nat) : List Document :=
  match env.multiQuery query (k / 3) with
  | Except.ok docs => docs
  | Except.error _ => simple_retrieve env query k

/-- `AdvancedRAGRetriever._advanced_retrieve`: standard retrieval, then
HyDE if enabled, then multi-query, then hybrid if enabled; fuse with
default weights and `k_rrf = 60`; truncate to `k`. -/
def advanced_retrieve (env : Env) (cfg : Settings) (query : String) (k : Nat) :
    List Document :=
  (fuse 60
    ([simple_retrieve env query k] ++
      (if cfg.enable_hyde then [hyde_branch env query k] else []) ++
      [multi_query_retrieve env query k] ++
      (if cfg.enable_hybrid then [hybrid_retrieve env query k] else []))
    none).take k

/-- Python's `top_k or settings.top_k_final`: `None` and `0` are falsy. -/
def pyOrNat (x : Option Nat) (d : Nat) : Nat :=
  match x with
  | some n => if n = 0 then d else n
  | none => d

/-- `strategy = self._select_strategy(query) if retrieval_strategy ==
"auto" else retrieval_strategy`. -/
def strategyResolved (cfg : Settings) (query strategy : String) : String :=
  if strategy = "auto" then select_strategy cfg query else strategy

/-- The strategy dispatch of `AdvancedRAGRetriever.retrieve`: an unknown
strategy string falls back to simple retrieval. -/
def strategyDocs (env : Env) (cfg : Settings) (query : String) (initial_k : Nat)
    (strategy : String) : List Document :=
  if strategyResolved cfg query strategy = "simple" then
    simple_retrieve env query initial_k
  else if strategyResolved cfg query strategy = "hybrid" then
    hybrid_retrieve env query initial_k
  else if strategyResolved cfg query strategy = "advanced" then
    advanced_retrieve env cfg query initial_k
  else simple_retrieve env query initial_k

/-- `if self.enable_reranking and documents: rerank(...) else
documents[:top_k]`. -/
def rerankStage (env : Env) (cfg : Settings) (query : String) (top_k : Nat)
    (documents : List Document) : List Document :=
  if cfg.enable_reranking ∧ ¬ documents.isEmpty = true then
    rerank env.predict query documents top_k
  else documents.take top_k

/-- `if settings.similarity_threshold > 0: filter_by_threshold(...)`. -/
def thresholdStage (cfg : Settings) (documents : List Document) : List Document :=
  if 0 < cfg.similarity_threshold then
    filter_by_threshold cfg.similarity_threshold documents
  else documents

/-- The `try` block of `AdvancedRAGRetriever.retrieve`: strategy
selection, dispatch, reranking or truncation, and the threshold filter, in
sequence.  Every collaborator call inside is individually guarded (the
store wrapper, the HyDE branch, the multi-query fallback and the reranker
each swallow their own failures), so the block always reaches its final
`return` — it is `Except.ok` by construction, and the caller's handler
never fires. -/
def retrieveBody (env : Env) (cfg : Settings) (query : String)
    (top_k initial_k : Nat) (strategy : String) : Except Unit (List Document) :=
  Except.ok (thresholdStage cfg
    (rerankStage env cfg query top_k (strategyDocs env cfg query initial_k strategy)))

/-- `AdvancedRAGRetriever.retrieve`: run the pipeline; on any exception
fall back to a bare simple retrieve at the originally requested final
size.  The fallback itself is the guarded wrapper search, so the overall
call always yields `Except.ok`. -/
def retrieve (env : Env) (cfg : Settings) (query : String) (top_k : Option Nat)
    (retrieval_strategy : String) : Except Unit (List Document) :=
  match retrieveBody env cfg query (pyOrNat top_k cfg.top_k_final)
      cfg.top_k_retrieval retrieval_strategy with
  | Except.ok documents => Except.ok documents
  | Except.error _ =>
    Except.ok (simple_retrieve env query (pyOrNat top_k cfg.top_k_final))

/-- An environment in which every collaborator throws and no scorer is
available. -/
def envThrow : Env :=
  { innerSearch := fun _ _ => Except.error (),
    innerSearchWithScore := fun _ _ => Except.error (),
    textSearch := fun _ _ => Except.error (),
    ilikeSearch := fun _ _ => Except.error (),
    multiQuery := fun _ _ => Except.error (),
    llmOutcomes := [],
    predict := none }

end Polaris

open Polaris

/-- C1: counterexample.  The claim states that every query of 5 to 14
tokens returns `"simple"` whenever hybrid is disabled; but with hybrid
disabled and HyDE enabled a 5-token query falls through to the HyDE branch
and yields `"advanced"`. -/
theorem c1_counterexample :
    (pySplit "alpha beta gamma delta epsilon").length = 5 ∧
    cfgHydeOnly.enable_hybrid = false ∧
    select_strategy cfgHydeOnly "alpha beta gamma delta epsilon" = "advanced" ∧
    select_strategy cfgHydeOnly "alpha beta gamma delta epsilon" ≠ "simple" := by
  refine ⟨by decide, rfl, by decide, by decide⟩

/-- C1 (amended): strategy selection is a pure function of the token count
and the flags: fewer than 5 tokens gives `simple`; 5 to 14 tokens gives
`hybrid` when hybrid is enabled, else `advanced` when HyDE is enabled, else
`simple`; 15 or more tokens gives `advanced` when HyDE is enabled, else
`hybrid` when hybrid is enabled, else `simple`. -/
theorem c1_select_strategy_amended (cfg : Settings) (query : String) :
    select_strategy cfg query = selectStrategyAmended cfg query := by
  unfold select_strategy selectStrategyAmended
  by_cases h5 : (pySplit query).length < 5
  · simp [h5]
  · by_cases h15 : (pySplit query).length < 15
    · by_cases hh : cfg.enable_hybrid
      · simp [h5, h15, hh]
      · by_cases hy : cfg.enable_hyde <;> simp [h5, h15, hh, hy]
    · by_cases hy : cfg.enable_hyde
      · simp [h5, h15, hy]
      · by_cases hh : cfg.enable_hybrid <;> simp [h5, h15, hh, hy]

/-- C10: the simple keyword score lies in `[0, 1]` for every query and
text, and when the lowercased query splits into zero tokens the score is
`0` (no division by zero). -/
theorem c10_simple_keyword_score_bounds (query text : String) :
    0 ≤ simple_keyword_score query text ∧
    simple_keyword_score query text ≤ 1 ∧
    (pySplit (pyLower query) = [] → simple_keyword_score query text = 0) := by
  by_cases he : (pySplit (pyLower query)).isEmpty
  · simp [simple_keyword_score, he]
  · have hne : pySplit (pyLower query) ≠ [] := by
      intro h
      rw [h] at he
      exact he rfl
    have hlenpos : 0 < ((pySplit (pyLower query)).length : ℚ) := by
      have : 0 < (pySplit (pyLower query)).length := List.length_pos.mpr hne
      exact_mod_cast this
    have hfil : ((pySplit (pyLower query)).filter
        (fun term => strContains (pyLower text) term)).length ≤
        (pySplit (pyLower query)).length :=
      List.length_filter_le _ _
    refine ⟨?_, ?_, fun h => absurd h hne⟩
    · unfold simple_keyword_score
      rw [if_neg he]
      positivity
    · unfold simple_keyword_score
      rw [if_neg he, div_le_one hlenpos]
      exact_mod_cast hfil

/-- C10 witness: concrete evaluation, including the empty-token case. -/
theorem c10_witness :
    simple_keyword_score "alpha beta" "the alpha case" = 1 / 2 ∧
    simple_keyword_score "" "anything" = 0 := by
  have h0 := c10_simple_keyword_score_bounds "alpha beta" "the alpha case"
  refine ⟨?_, (c10_simple_keyword_score_bounds "" "anything").2.2 (by decide)⟩
  have he : (pySplit (pyLower "alpha beta")).isEmpty = false := by decide
  have hlen : (pySplit (pyLower "alpha beta")).length = 2 := by decide
  have hfil : ((pySplit (pyLower "alpha beta")).filter
      (fun term => strContains (pyLower "the alpha case") term)).length = 1 := by decide
  unfold simple_keyword_score
  rw [if_neg (by rw [he]; exact Bool.false_ne_true), hlen, hfil]
  norm_num

/-- Lookup after a dict update at the same key yields the new value. -/
theorem metaLookup_metaSet_same (m : List (String × MetaVal)) (k : String) (v : MetaVal) :
    metaLookup (metaSet m k v) k = some v := by
  induction m with
  | nil => simp [metaSet, metaLookup]
  | cons p ps ih =>
    rw [metaSet]
    by_cases h : p.1 = k
    · rw [if_pos h]
      simp [metaLookup]
    · rw [if_neg h]
      simp [metaLookup, h, ih]

/-- Lookup after a dict update at a different key is unchanged. -/
theorem metaLookup_metaSet_ne (m : List (String × MetaVal)) (k k2 : String) (v : MetaVal)
    (h : k2 ≠ k) : metaLookup (metaSet m k v) k2 = metaLookup m k2 := by
  induction m with
  | nil =>
    have h1 : ¬((k : String) = k2) := fun he => h he.symm
    simp [metaSet, metaLookup, h1]
  | cons p ps ih =>
    rw [metaSet]
    by_cases hp : p.1 = k
    · rw [if_pos hp]
      have h1 : ¬((k : String) = k2) := fun he => h he.symm
      have h2 : ¬(p.1 = k2) := by
        rw [hp]
        exact h1
      simp [metaLookup, h1, h2]
    · rw [if_neg hp]
      by_cases hq : p.1 = k2
      · simp [metaLookup, hq]
      · simp [metaLookup, hq, ih]

/-- Numeric read after setting a numeric value at the same key. -/
theorem metaGetNum_metaSet_same (m : List (String × MetaVal)) (k : String) (q d : ℚ) :
    metaGetNum (metaSet m k (MetaVal.mnum q)) k d = q := by
  simp [metaGetNum, metaLookup_metaSet_same]

/-- Inserting into the sorted list is a permutation of consing. -/
theorem insertDesc_perm (key : α → ℚ) (x : α) (l : List α) :
    (insertDesc key x l).Perm (x :: l) := by
  induction l with
  | nil => exact List.Perm.refl _
  | cons y ys ih =>
    rw [insertDesc]
    by_cases h : key y ≤ key x
    · rw [if_pos h]
    · rw [if_neg h]
      exact (ih.cons y).trans (List.Perm.swap x y ys)

/-- The stable descending sort permutes its input. -/
theorem pySortDesc_perm (key : α → ℚ) (l : List α) : (pySortDesc key l).Perm l := by
  induction l with
  | nil => exact List.Perm.refl _
  | cons x xs ih => exact (insertDesc_perm key x (pySortDesc key xs)).trans (ih.cons x)

/-- Stability of insertion: the result is pairwise ordered by strictly
descending key, with the auxiliary relation `S` holding across ties, given
that `S` relates the inserted element to everything already present. -/
theorem pairwise_insertDesc {S : α → α → Prop} (key : α → ℚ) (x : α) (l : List α)
    (hl : l.Pairwise (fun a b => key b < key a ∨ (key b = key a ∧ S a b)))
    (hx : ∀ y ∈ l, S x y) :
    (insertDesc key x l).Pairwise (fun a b => key b < key a ∨ (key b = key a ∧ S a b)) := by
  induction l with
  | nil => simp [insertDesc]
  | cons y ys ih =>
    rw [insertDesc]
    obtain ⟨hy, hys⟩ := List.pairwise_cons.mp hl
    by_cases h : key y ≤ key x
    · rw [if_pos h]
      refine List.Pairwise.cons ?_ hl
      intro z hz
      have hzx : key z ≤ key x := by
        rcases List.mem_cons.mp hz with rfl | hz2
        · exact h
        · rcases hy z hz2 with h1 | h1
          · exact le_trans (le_of_lt h1) h
          · exact le_trans (le_of_eq h1.1) h
      rcases lt_or_eq_of_le hzx with h1 | h1
      · exact Or.inl h1
      · exact Or.inr ⟨h1, hx z hz⟩
    · rw [if_neg h]
      push_neg at h
      refine List.Pairwise.cons ?_ (ih hys (fun z hz => hx z (List.mem_cons_of_mem y hz)))
      intro z hz
      have hz2 : z = x ∨ z ∈ ys := by
        have := (insertDesc_perm key x ys).mem_iff.mp hz
        simpa using this
      rcases hz2 with rfl | hz2
      · exact Or.inl h
      · exact hy z hz2

/-- Stability of the sort: pairwise strictly-descending keys, with the
original pairwise relation `S` holding across ties. -/
theorem pairwise_pySortDesc {S : α → α → Prop} (key : α → ℚ) (l : List α)
    (hl : l.Pairwise S) :
    (pySortDesc key l).Pairwise (fun a b => key b < key a ∨ (key b = key a ∧ S a b)) := by
  induction l with
  | nil => simp [pySortDesc]
  | cons x xs ih =>
    obtain ⟨hx, hxs⟩ := List.pairwise_cons.mp hl
    exact pairwise_insertDesc key x (pySortDesc key xs) (ih hxs)
      (fun y hy => hx y ((pySortDesc_perm key xs).mem_iff.mp hy))

/-- The sort output has (weakly) descending keys. -/
theorem sorted_pySortDesc (key : α → ℚ) (l : List α) :
    (pySortDesc key l).Pairwise (fun a b => key b ≤ key a) := by
  have htriv : l.Pairwise (fun _ _ => True) := by
    induction l with
    | nil => exact List.Pairwise.nil
    | cons x xs ih => exact List.Pairwise.cons (fun _ _ => trivial) ih
  exact (pairwise_pySortDesc (S := fun _ _ => True) key l htriv).imp
    (fun hab => hab.elim le_of_lt (fun hab2 => le_of_eq hab2.1))

/-- Filtering the insertion by an exact key value: the inserted element is
prepended when it matches (everything it jumped over has a strictly larger
key), and dropped otherwise. -/
theorem filter_insertDesc (key : α → ℚ) (x : α) (l : List α) (s : ℚ) :
    (insertDesc key x l).filter (fun a => decide (key a = s)) =
      if key x = s then x :: l.filter (fun a => decide (key a = s))
      else l.filter (fun a => decide (key a = s)) := by
  induction l with
  | nil =>
    by_cases h : key x = s <;> simp [insertDesc, h]
  | cons y ys ih =>
    rw [insertDesc]
    by_cases h : key y ≤ key x
    · rw [if_pos h]
      by_cases hx : key x = s <;> simp [List.filter_cons, hx]
    · rw [if_neg h]
      push_neg at h
      by_cases hx : key x = s
      · have hy : ¬(key y = s) := by
          intro hy
          rw [← hx] at hy
          exact absurd hy (ne_of_gt h)
        simp [List.filter_cons, hx, hy, ih]
      · by_cases hy : key y = s <;> simp [List.filter_cons, hx, hy, ih]

/-- The sort is stable: restricted to any fixed key value, the output is
the input unchanged. -/
theorem filter_pySortDesc (key : α → ℚ) (l : List α) (s : ℚ) :
    (pySortDesc key l).filter (fun a => decide (key a = s)) =
      l.filter (fun a => decide (key a = s)) := by
  induction l with
  | nil => simp [pySortDesc]
  | cons x xs ih =>
    have hstep : pySortDesc key (x :: xs) = insertDesc key x (pySortDesc key xs) := rfl
    rw [hstep, filter_insertDesc]
    by_cases h : key x = s <;> simp [List.filter_cons, h, ih]

/-- C4: counterexample.  The claim says the filter drops exactly the
passages whose best-known relevance score (rerank score if present, else
similarity score, else 1.0) is below the threshold.  `dLow` carries a
rerank score of 0, below the threshold 1, and `dHigh` passes, so the claim
predicts `dLow` is dropped; but the code reads only the `'score'` metadata
key (absent here, so both documents default to 1.0) and keeps `dLow`. -/
theorem c4_counterexample :
    bestKnownScore dLow = 0 ∧ (0 : ℚ) < 1 ∧
    ¬ bestKnownScore dHigh < 1 ∧
    filter_by_threshold 1 [dLow, dHigh] = [dLow, dHigh] ∧
    dLow ∈ filter_by_threshold 1 [dLow, dHigh] := by
  refine ⟨by decide, by decide, by decide, by decide, by decide⟩

/-- C4 (amended): the threshold filter keeps exactly the documents whose
`'score'` metadata entry (default 1.0 when absent; rerank scores stored
under `'rerank_score'` are not consulted) reaches the threshold, except
that when every document falls below the threshold the input is returned
unchanged; hence a non-empty input always yields a non-empty output. -/
theorem c4_filter_by_threshold_amended (t : ℚ) (docs : List Document) :
    (∀ d, d ∈ filter_by_threshold t docs ↔
      (d ∈ docs ∧ (t ≤ metaGetNum d.metadata "score" 1 ∨
        ∀ e ∈ docs, metaGetNum e.metadata "score" 1 < t))) ∧
    (docs ≠ [] → filter_by_threshold t docs ≠ []) := by
  by_cases hemp : (docs.filter
      (fun doc => decide (t ≤ metaGetNum doc.metadata "score" 1))).isEmpty
  · have hout : filter_by_threshold t docs = docs := by
      unfold filter_by_threshold
      rw [if_pos hemp]
    have hnil := List.isEmpty_iff.mp hemp
    have hall : ∀ e ∈ docs, metaGetNum e.metadata "score" 1 < t := by
      intro e he
      have := List.filter_eq_nil_iff.mp hnil e he
      simpa using this
    refine ⟨fun d => ?_, ?_⟩
    · rw [hout]
      exact ⟨fun hd => ⟨hd, Or.inr hall⟩, fun hd => hd.1⟩
    · intro hne
      rw [hout]
      exact hne
  · have hout : filter_by_threshold t docs =
        docs.filter (fun doc => decide (t ≤ metaGetNum doc.metadata "score" 1)) := by
      unfold filter_by_threshold
      rw [if_neg hemp]
    have hne2 : docs.filter
        (fun doc => decide (t ≤ metaGetNum doc.metadata "score" 1)) ≠ [] := by
      intro h
      rw [h] at hemp
      exact hemp rfl
    refine ⟨fun d => ⟨?_, ?_⟩, fun _ => hout ▸ hne2⟩
    · intro hd
      rw [hout] at hd
      obtain ⟨h1, h2⟩ := List.mem_filter.mp hd
      exact ⟨h1, Or.inl (by simpa using h2)⟩
    · rintro ⟨h1, h2 | h2⟩
      · rw [hout]
        exact List.mem_filter.mpr ⟨h1, by simpa using h2⟩
      · exfalso
        obtain ⟨x, hx⟩ := List.exists_mem_of_ne_nil _ hne2
        obtain ⟨hx1, hx2⟩ := List.mem_filter.mp hx
        exact absurd (by simpa using hx2) (not_le.mpr (h2 x hx1))

/-- C4 witness: at threshold 1 the document with default score 1.0 is kept
and the output is non-empty. -/
theorem c4_witness :
    dHigh ∈ filter_by_threshold 1 [dLow, dHigh] ∧
    filter_by_threshold 1 [dLow, dHigh] ≠ [] := by
  refine ⟨((c4_filter_by_threshold_amended 1 [dLow, dHigh]).1 dHigh).mpr
      ⟨by decide, Or.inl (by decide)⟩,
    (c4_filter_by_threshold_amended 1 [dLow, dHigh]).2 (by decide)⟩

/-- The generation loop in closed form: any exception among the outcomes
discards the accumulator and yields the bare query; otherwise the non-empty
stripped completions are appended to the accumulator. -/
theorem genLoop_eq (query : String) (outcomes : List (Except Unit String))
    (acc : List String) :
    genLoop query outcomes acc =
      if outcomes.any isErr then [query]
      else acc ++ outcomes.filterMap (fun o =>
        match o with
        | Except.ok r => if (pyStrip r).isEmpty then none else some (pyStrip r)
        | Except.error _ => none) := by
  induction outcomes generalizing acc with
  | nil => simp [genLoop]
  | cons o rest ih =>
    cases o with
    | ok r =>
      by_cases hr : (pyStrip r).isEmpty
      · simp [genLoop, hr, ih, isErr, List.filterMap_cons]
      · simp [genLoop, hr, ih, isErr, List.filterMap_cons]
    | error e => simp [genLoop, isErr]

/-- C5: counterexample.  The claim says a failed hypothesis generation is
skipped and the remaining hypotheses are still used; but one exception in
the shared `try` discards the already-generated hypothesis `"h1"`, never
attempts `"h3"`, and falls back to the original query alone. -/
theorem c5_counterexample :
    generate_hypotheses [Except.ok "h1", Except.error (), Except.ok "h3"] "orig" =
      ["orig"] ∧
    generate_hypotheses [Except.ok "h1", Except.error (), Except.ok "h3"] "orig" ≠
      ["h1", "h3"] := by
  refine ⟨by decide, by decide⟩

/-- C5 (amended): if any hypothesis-generation call raises, generation
aborts and the original query becomes the sole hypothesis (hypotheses
generated before the failure are discarded); a generation that strips to
the empty string is skipped; if nothing is collected the original query is
used; and if the retrieval loop itself throws, the HyDE branch returns the
plain vector search on the original query, while a fully successful loop
returns the deduplicated, truncated concatenation. -/
theorem c5_hyde_failure_policy_amended (outcomes : List (Except Unit String))
    (query : String) :
    generate_hypotheses outcomes query = generateHypothesesSpec outcomes query ∧
    (∀ (store : String → Except Unit (List Document)) (k : Nat) (e : Unit),
      searchLoop store (generate_hypotheses outcomes query) [] = Except.error e →
      hyde_retrieve store outcomes query k = store query) ∧
    (∀ (store : String → Except Unit (List Document)) (k : Nat) (docs : List Document),
      searchLoop store (generate_hypotheses outcomes query) [] = Except.ok docs →
      hyde_retrieve store outcomes query k =
        Except.ok ((deduplicate_documents docs).take k)) := by
  refine ⟨?_, ?_, ?_⟩
  · unfold generate_hypotheses generateHypothesesSpec
    rw [genLoop_eq]
    by_cases he : outcomes.any isErr
    · simp [he]
    · simp [he]
  · intro store k e h
    unfold hyde_retrieve
    rw [h]
  · intro store k docs h
    unfold hyde_retrieve
    rw [h]

/-- C5 witness: a store that always throws triggers the fallback, which
itself surfaces the plain search on the original query; and the generation
equivalence at a concrete outcome list. -/
theorem c5_witness :
    hyde_retrieve (fun _ => Except.error ()) [Except.ok "h1"] "orig" 3 =
      Except.error () ∧
    generate_hypotheses [Except.ok " h1 ", Except.ok "  "] "orig" =
      generateHypothesesSpec [Except.ok " h1 ", Except.ok "  "] "orig" := by
  refine ⟨(c5_hyde_failure_policy_amended [Except.ok "h1"] "orig").2.1
      (fun _ => Except.error ()) 3 () rfl, ?_⟩
  exact (c5_hyde_failure_policy_amended [Except.ok " h1 ", Except.ok "  "] "orig").1

/-- C6: reranking is fail-open.  With no scorer (`none`) it returns the
first `top_k` candidates unchanged; with a scorer whose call errors it does
the same; with a successful scoring call returning one score per candidate
it returns `min top_k n` documents, sorted by descending attached
`rerank_score`, each being one of the original candidates with its score
attached. -/
theorem c6_rerank_fail_open (query : String) (documents : List Document) (top_k : Nat) :
    rerank none query documents top_k = documents.take top_k ∧
    (∀ f e, f (documents.map (fun d => (query, d.page_content))) = Except.error e →
      rerank (some f) query documents top_k = documents.take top_k) ∧
    (∀ f scores, f (documents.map (fun d => (query, d.page_content))) = Except.ok scores →
      scores.length = documents.length →
      (rerank (some f) query documents top_k).length = min top_k documents.length ∧
      ((rerank (some f) query documents top_k).map
        (fun d => metaGetNum d.metadata "rerank_score" 0)).Pairwise (fun a b => b ≤ a) ∧
      ∀ d ∈ rerank (some f) query documents top_k,
        ∃ p ∈ documents.zip scores,
          d = { p.1 with
            metadata := metaSet p.1.metadata "rerank_score" (MetaVal.mnum p.2) }) := by
  refine ⟨rfl, ?_, ?_⟩
  · intro f e hf
    simp only [rerank]
    by_cases hemp : documents.isEmpty
    · rw [if_pos hemp]
    · rw [if_neg hemp, hf]
  · intro f scores hf hlen
    by_cases hemp : documents.isEmpty
    · have hd : documents = [] := by
        cases documents with
        | nil => rfl
        | cons a l => exact absurd hemp (by simp)
      subst hd
      simp [rerank]
    · have hout : rerank (some f) query documents top_k =
          ((pySortDesc Prod.snd (documents.zip scores)).take top_k).map
            (fun p => { p.1 with
              metadata := metaSet p.1.metadata "rerank_score" (MetaVal.mnum p.2) }) := by
        simp only [rerank]
        rw [if_neg hemp, hf]
      rw [hout]
      refine ⟨?_, ?_, ?_⟩
      · rw [List.length_map, List.length_take, (pySortDesc_perm _ _).length_eq,
          List.length_zip, hlen, min_self]
      · rw [List.map_map]
        have hmap : ((pySortDesc Prod.snd (documents.zip scores)).take top_k).map
            ((fun d => metaGetNum d.metadata "rerank_score" 0) ∘
              (fun p => { p.1 with
                metadata := metaSet p.1.metadata "rerank_score" (MetaVal.mnum p.2) })) =
            ((pySortDesc Prod.snd (documents.zip scores)).take top_k).map Prod.snd := by
          apply List.map_congr_left
          intro p _
          simp [metaGetNum_metaSet_same]
        rw [hmap]
        rw [List.pairwise_map]
        exact List.Pairwise.sublist (List.take_sublist top_k _)
          (sorted_pySortDesc Prod.snd (documents.zip scores))
      · intro d hd
        obtain ⟨p, hp, rfl⟩ := List.mem_map.mp hd
        have hp2 : p ∈ pySortDesc Prod.snd (documents.zip scores) :=
          List.take_subset _ _ hp
        exact ⟨p, (pySortDesc_perm _ _).mem_iff.mp hp2, rfl⟩

/-- C6 witness: with no scorer `rerank` over four candidates at `top_k = 2`
returns the first two unchanged; likewise when the scorer call errors; and
a successful scorer yields `min 2 4` documents. -/
theorem c6_witness :
    rerank none "q" [p1, p2, p3, p4] 2 = [p1, p2] ∧
    rerank (some (fun _ => Except.error ())) "q" [p1, p2, p3, p4] 2 = [p1, p2] ∧
    (rerank (some (fun _ => Except.ok [1, 0, 3, 2])) "q" [p1, p2, p3, p4] 2).length =
      min 2 4 := by
  obtain ⟨h1, h2, h3⟩ := c6_rerank_fail_open "q" [p1, p2, p3, p4] 2
  exact ⟨h1.trans rfl, (h2 (fun _ => Except.error ()) () rfl).trans rfl,
    (h3 (fun _ => Except.ok [1, 0, 3, 2]) [1, 0, 3, 2] rfl rfl).1⟩

/-- Reading the scores dict after one accumulation step. -/
theorem lookupScore_bump (s : List (DocId × ℚ)) (i j : DocId) (v : ℚ) :
    lookupScore (bump s i v) j = lookupScore s j + (if j = i then v else 0) := by
  induction s with
  | nil =>
    by_cases h : j = i
    · subst h
      simp [bump, lookupScore]
    · have h2 : ¬(i = j) := fun he => h he.symm
      simp [bump, lookupScore, h, h2]
  | cons p ps ih =>
    rw [bump]
    by_cases hp : p.1 = i
    · by_cases hj : p.1 = j
      · rw [if_pos hp]
        have h1 : j = i := by
          rw [← hj, hp]
        simp [lookupScore, hj, h1]
      · rw [if_pos hp]
        have h1 : ¬(j = i) := fun he => hj (by rw [hp, he])
        simp [lookupScore, hj, h1]
    · rw [if_neg hp]
      by_cases hj : p.1 = j
      · have hji : ¬(j = i) := fun he => hp (by rw [hj, he])
        simp [lookupScore, hj, hji]
      · simp [lookupScore, hj, ih]

/-- The key sequence of the scores dict after one accumulation step. -/
theorem keys_bump (s : List (DocId × ℚ)) (i : DocId) (v : ℚ) :
    (bump s i v).map Prod.fst =
      if i ∈ s.map Prod.fst then s.map Prod.fst else s.map Prod.fst ++ [i] := by
  induction s with
  | nil => simp [bump]
  | cons p ps ih =>
    rw [bump]
    by_cases hp : p.1 = i
    · rw [if_pos hp]
      simp [hp]
    · rw [if_neg hp]
      have h1 : ¬(i = p.1) := fun he => hp he.symm
      by_cases hm : i ∈ ps.map Prod.fst <;> simp [hm, h1, ih]

/-- The key sequence of the objects dict after one accumulation step. -/
theorem keys_addObj (o : List (DocId × Document)) (i : DocId) (d : Document) :
    (addObj o i d).map Prod.fst =
      if i ∈ o.map Prod.fst then o.map Prod.fst else o.map Prod.fst ++ [i] := by
  induction o with
  | nil => simp [addObj]
  | cons p ps ih =>
    rw [addObj]
    by_cases hp : p.1 = i
    · rw [if_pos hp]
      simp [hp]
    · rw [if_neg hp]
      have h1 : ¬(i = p.1) := fun he => hp he.symm
      by_cases hm : i ∈ ps.map Prod.fst <;> simp [hm, h1, ih]

/-- Reading the objects dict after an insert-if-absent step. -/
theorem lookupObj_addObj (o : List (DocId × Document)) (i j : DocId) (d : Document) :
    lookupObj (addObj o i d) j =
      if j = i then some ((lookupObj o i).getD d) else lookupObj o j := by
  induction o with
  | nil =>
    by_cases h : j = i
    · subst h
      simp [addObj, lookupObj]
    · have h2 : ¬(i = j) := fun he => h he.symm
      simp [addObj, lookupObj, h, h2]
  | cons p ps ih =>
    rw [addObj]
    by_cases hp : p.1 = i
    · rw [if_pos hp]
      by_cases hj : j = i
      · subst hj
        simp [lookupObj, hp]
      · simp [lookupObj, hj]
    · rw [if_neg hp]
      by_cases hj : j = i
      · subst hj
        have h1 : ¬(p.1 = j) := hp
        simp [lookupObj, h1, hp, ih]
      · by_cases hpj : p.1 = j <;> simp [lookupObj, hpj, hj, ih]

/-- Scores after folding one ranked list: the old reading plus this list's
reciprocal-rank contribution from the current rank on. -/
theorem lookupScore_fuseList (k w : ℚ) (l : List Document) (r : ℚ)
    (st : List (DocId × ℚ) × List (DocId × Document)) (j : DocId) :
    lookupScore (fuseList k w l r st).1 j = lookupScore st.1 j + listContrib k w l r j := by
  induction l generalizing r st with
  | nil => simp [fuseList, listContrib]
  | cons d ds ih =>
    rw [fuseList, listContrib, ih, lookupScore_bump]
    by_cases h : j = get_doc_id d
    · subst h
      rw [if_pos rfl]
      ring
    · have h2 : ¬(get_doc_id d = j) := fun he => h he.symm
      rw [if_neg h, if_neg h2]
      ring

/-- Scores after folding all weighted lists: the old reading plus the
spec-side fused score. -/
theorem lookupScore_fuseAccum (k : ℚ) (pairs : List (ℚ × List Document))
    (st : List (DocId × ℚ) × List (DocId × Document)) (j : DocId) :
    lookupScore (fuseAccum k pairs st).1 j =
      lookupScore st.1 j + rrfSpecScore k pairs j := by
  induction pairs generalizing st with
  | nil => simp [fuseAccum, rrfSpecScore]
  | cons wl rest ih =>
    rw [show fuseAccum k (wl :: rest) st = fuseAccum k rest (fuseList k wl.1 wl.2 1 st) by
          rw [fuseAccum],
      ih, lookupScore_fuseList, rrfSpecScore]
    simp [rrfSpecScore]
    ring

/-- First-seen accumulation over a concatenation. -/
theorem firstSeenAcc_append (acc : List DocId) (xs ys : List DocId) :
    firstSeenAcc acc (xs ++ ys) = firstSeenAcc (firstSeenAcc acc xs) ys := by
  induction xs generalizing acc with
  | nil => simp [firstSeenAcc]
  | cons i is2 ih => rw [List.cons_append, firstSeenAcc, firstSeenAcc, ih]

/-- Membership in the first-seen accumulation. -/
theorem mem_firstSeenAcc (acc : List DocId) (ids : List DocId) (j : DocId) :
    j ∈ firstSeenAcc acc ids ↔ j ∈ acc ∨ j ∈ ids := by
  induction ids generalizing acc with
  | nil => simp [firstSeenAcc]
  | cons i is2 ih =>
    rw [firstSeenAcc, ih]
    by_cases hm : i ∈ acc
    · rw [if_pos hm]
      constructor
      · rintro (h | h)
        · exact Or.inl h
        · exact Or.inr (List.mem_cons_of_mem i h)
      · rintro (h | h)
        · exact Or.inl h
        · rcases List.mem_cons.mp h with rfl | h2
          · exact Or.inl hm
          · exact Or.inr h2
    · rw [if_neg hm]
      constructor
      · rintro (h | h)
        · rcases List.mem_append.mp h with h2 | h2
          · exact Or.inl h2
          · have hji : j = i := by simpa using h2
            exact Or.inr (by rw [hji]; exact List.mem_cons_self i is2)
        · exact Or.inr (List.mem_cons_of_mem i h)
      · rintro (h | h)
        · exact Or.inl (List.mem_append.mpr (Or.inl h))
        · rcases List.mem_cons.mp h with rfl | h2
          · exact Or.inl (List.mem_append.mpr (Or.inr (List.mem_singleton.mpr rfl)))
          · exact Or.inr h2

/-- The first-seen accumulation keeps the accumulator duplicate-free. -/
theorem nodup_firstSeenAcc (acc : List DocId) (ids : List DocId) (h : acc.Nodup) :
    (firstSeenAcc acc ids).Nodup := by
  induction ids generalizing acc with
  | nil => exact h
  | cons i is2 ih =>
    rw [firstSeenAcc]
    by_cases hm : i ∈ acc
    · rw [if_pos hm]
      exact ih acc h
    · rw [if_neg hm]
      refine ih _ ?_
      rw [List.nodup_append]
      exact ⟨h, List.nodup_singleton i, by simpa using fun he => hm he⟩

/-- The score keys after folding one ranked list follow the first-seen
accumulation of that list's identities. -/
theorem keys_fuseList_scores (k w : ℚ) (l : List Document) (r : ℚ)
    (st : List (DocId × ℚ) × List (DocId × Document)) :
    (fuseList k w l r st).1.map Prod.fst =
      firstSeenAcc (st.1.map Prod.fst) (l.map get_doc_id) := by
  induction l generalizing r st with
  | nil => simp [fuseList, firstSeenAcc]
  | cons d ds ih =>
    rw [fuseList, List.map_cons, firstSeenAcc, ih, keys_bump]

/-- The object keys after folding one ranked list follow the same
first-seen accumulation. -/
theorem keys_fuseList_objs (k w : ℚ) (l : List Document) (r : ℚ)
    (st : List (DocId × ℚ) × List (DocId × Document)) :
    (fuseList k w l r st).2.map Prod.fst =
      firstSeenAcc (st.2.map Prod.fst) (l.map get_doc_id) := by
  induction l generalizing r st with
  | nil => simp [fuseList, firstSeenAcc]
  | cons d ds ih =>
    rw [fuseList, List.map_cons, firstSeenAcc, ih, keys_addObj]

/-- The score keys after folding all weighted lists. -/
theorem keys_fuseAccum_scores (k : ℚ) (pairs : List (ℚ × List Document))
    (st : List (DocId × ℚ) × List (DocId × Document)) :
    (fuseAccum k pairs st).1.map Prod.fst =
      firstSeenAcc (st.1.map Prod.fst)
        (((pairs.map Prod.snd).flatten).map get_doc_id) := by
  induction pairs generalizing st with
  | nil => simp [fuseAccum, firstSeenAcc]
  | cons wl rest ih =>
    rw [show fuseAccum k (wl :: rest) st = fuseAccum k rest (fuseList k wl.1 wl.2 1 st) by
          rw [fuseAccum],
      ih, keys_fuseList_scores, List.map_cons, List.flatten_cons, List.map_append,
      firstSeenAcc_append]

/-- The object keys after folding all weighted lists. -/
theorem keys_fuseAccum_objs (k : ℚ) (pairs : List (ℚ × List Document))
    (st : List (DocId × ℚ) × List (DocId × Document)) :
    (fuseAccum k pairs st).2.map Prod.fst =
      firstSeenAcc (st.2.map Prod.fst)
        (((pairs.map Prod.snd).flatten).map get_doc_id) := by
  induction pairs generalizing st with
  | nil => simp [fuseAccum, firstSeenAcc]
  | cons wl rest ih =>
    rw [show fuseAccum k (wl :: rest) st = fuseAccum k rest (fuseList k wl.1 wl.2 1 st) by
          rw [fuseAccum],
      ih, keys_fuseList_objs, List.map_cons, List.flatten_cons, List.map_append,
      firstSeenAcc_append]

/-- Objects after folding one ranked list: a present entry is kept,
otherwise the first matching document of the list is stored. -/
theorem lookupObj_fuseList (k w : ℚ) (l : List Document) (r : ℚ)
    (st : List (DocId × ℚ) × List (DocId × Document)) (j : DocId) :
    lookupObj (fuseList k w l r st).2 j = optOr (lookupObj st.2 j) (findDoc l j) := by
  induction l generalizing r st with
  | nil =>
    rw [fuseList, findDoc]
    cases lookupObj st.2 j <;> rfl
  | cons d ds ih =>
    rw [fuseList, ih, lookupObj_addObj, findDoc]
    by_cases hj : j = get_doc_id d
    · rw [if_pos hj]
      have h2 : get_doc_id d = j := hj.symm
      rw [if_pos h2, hj]
      cases hx : lookupObj st.2 (get_doc_id d) <;> simp [optOr]
    · rw [if_neg hj]
      have h2 : ¬(get_doc_id d = j) := fun he => hj he.symm
      rw [if_neg h2]

/-- Objects after folding all weighted lists: the retained document for an
identity is its first occurrence scanning the lists left to right. -/
theorem lookupObj_fuseAccum (k : ℚ) (pairs : List (ℚ × List Document))
    (st : List (DocId × ℚ) × List (DocId × Document)) (j : DocId) :
    lookupObj (fuseAccum k pairs st).2 j =
      optOr (lookupObj st.2 j) (findDoc ((pairs.map Prod.snd).flatten) j) := by
  induction pairs generalizing st with
  | nil =>
    rw [fuseAccum]
    cases lookupObj st.2 j <;> simp [optOr, findDoc]
  | cons wl rest ih =>
    have hfind : ∀ (xs ys : List Document),
        findDoc (xs ++ ys) j = optOr (findDoc xs j) (findDoc ys j) := by
      intro xs ys
      induction xs with
      | nil => simp [findDoc, optOr]
      | cons x xs2 ihx =>
        rw [List.cons_append, findDoc, findDoc]
        by_cases hx : get_doc_id x = j
        · rw [if_pos hx, if_pos hx]
          rfl
        · rw [if_neg hx, if_neg hx, ihx]
    rw [show fuseAccum k (wl :: rest) st = fuseAccum k rest (fuseList k wl.1 wl.2 1 st) by
          rw [fuseAccum],
      ih, lookupObj_fuseList, List.map_cons, List.flatten_cons, hfind]
    cases lookupObj st.2 j <;> cases findDoc wl.2 j <;> simp [optOr]

/-- A key present in the score dict determines its (unique) stored value. -/
theorem lookupScore_of_mem (s : List (DocId × ℚ)) (p : DocId × ℚ)
    (hn : (s.map Prod.fst).Nodup) (hp : p ∈ s) : lookupScore s p.1 = p.2 := by
  induction s with
  | nil => cases hp
  | cons q qs ih =>
    rw [List.map_cons, List.nodup_cons] at hn
    rcases List.mem_cons.mp hp with rfl | hp2
    · rw [lookupScore, if_pos rfl]
    · rw [lookupScore]
      by_cases hq : q.1 = p.1
      · exact absurd (hq ▸ (List.mem_map_of_mem Prod.fst hp2)) hn.1
      · rw [if_neg hq]
        exact ih hn.2 hp2

/-- A flat scan only ever returns a document with the identity it looked
for. -/
theorem findDoc_eq_id (l : List Document) (j : DocId) (d : Document)
    (h : findDoc l j = some d) : get_doc_id d = j := by
  induction l with
  | nil => cases h
  | cons x xs ih =>
    rw [findDoc] at h
    by_cases hx : get_doc_id x = j
    · rw [if_pos hx] at h
      cases h
      exact hx
    · rw [if_neg hx] at h
      exact ih h

/-- A present identity always has a first occurrence. -/
theorem findDoc_some_of_mem (l : List Document) (j : DocId)
    (h : j ∈ l.map get_doc_id) : ∃ d, findDoc l j = some d := by
  induction l with
  | nil => cases h
  | cons x xs ih =>
    rw [findDoc]
    by_cases hx : get_doc_id x = j
    · rw [if_pos hx]
      exact ⟨x, rfl⟩
    · rw [if_neg hx]
      have h2 : j = get_doc_id x ∨ ∃ a ∈ xs, get_doc_id a = j := by simpa using h
      rcases h2 with hxj | ⟨a, ha, haj⟩
      · exact absurd hxj.symm hx
      · exact ih (List.mem_map.mpr ⟨a, ha, haj⟩)

/-- Attaching the fused score does not change a document's identity. -/
theorem get_doc_id_metaSet_rrf (d : Document) (v : MetaVal) :
    get_doc_id { d with metadata := metaSet d.metadata "rrf_score" v } = get_doc_id d := by
  unfold get_doc_id
  simp only
  rw [metaLookup_metaSet_ne d.metadata "rrf_score" "id" v (by decide)]

/-- The lookup in `attachRRF` succeeds for every score item, so the output
identities are exactly the score items' keys, in order. -/
theorem out_map_ids (objs : List (DocId × Document)) (sl : List (DocId × ℚ))
    (hs : ∀ p ∈ sl, ∃ d0, lookupObj objs p.1 = some d0 ∧ get_doc_id d0 = p.1) :
    (sl.filterMap (attachRRF objs)).map get_doc_id = sl.map Prod.fst := by
  induction sl with
  | nil => rfl
  | cons p ps ih =>
    obtain ⟨d0, hd0, hid⟩ := hs p (List.mem_cons_self p ps)
    have hat : attachRRF objs p =
        some { d0 with metadata := metaSet d0.metadata "rrf_score" (MetaVal.mnum p.2) } := by
      rw [attachRRF, hd0]
    rw [List.filterMap_cons, hat, List.map_cons, List.map_cons, get_doc_id_metaSet_rrf,
      hid, ih (fun q hq => hs q (List.mem_cons_of_mem p hq))]

/-- The output `rrf_score` readings are exactly the score items' values,
in order. -/
theorem out_map_scores (objs : List (DocId × Document)) (sl : List (DocId × ℚ))
    (hs : ∀ p ∈ sl, ∃ d0, lookupObj objs p.1 = some d0) :
    (sl.filterMap (attachRRF objs)).map (fun d => metaGetNum d.metadata "rrf_score" 0) =
      sl.map Prod.snd := by
  induction sl with
  | nil => rfl
  | cons p ps ih =>
    obtain ⟨d0, hd0⟩ := hs p (List.mem_cons_self p ps)
    have hat : attachRRF objs p =
        some { d0 with metadata := metaSet d0.metadata "rrf_score" (MetaVal.mnum p.2) } := by
      rw [attachRRF, hd0]
    rw [List.filterMap_cons, hat, List.map_cons, List.map_cons]
    simp only [metaGetNum_metaSet_same]
    rw [ih (fun q hq => hs q (List.mem_cons_of_mem p hq))]

/-- Restricting the output to one fused-score value and reading identities
agrees with restricting the score items and reading keys. -/
theorem out_filter_ids (objs : List (DocId × Document)) (sl : List (DocId × ℚ)) (s : ℚ)
    (hs : ∀ p ∈ sl, ∃ d0, lookupObj objs p.1 = some d0 ∧ get_doc_id d0 = p.1) :
    (((sl.filterMap (attachRRF objs)).filter
        (fun d => decide (metaGetNum d.metadata "rrf_score" 0 = s))).map get_doc_id) =
      (sl.filter (fun p => decide (p.2 = s))).map Prod.fst := by
  induction sl with
  | nil => rfl
  | cons p ps ih =>
    obtain ⟨d0, hd0, hid⟩ := hs p (List.mem_cons_self p ps)
    have hat : attachRRF objs p =
        some { d0 with metadata := metaSet d0.metadata "rrf_score" (MetaVal.mnum p.2) } := by
      rw [attachRRF, hd0]
    have ih2 := ih (fun q hq => hs q (List.mem_cons_of_mem p hq))
    rw [List.filterMap_cons, hat, List.filter_cons, List.filter_cons]
    by_cases hps : p.2 = s
    · simp [metaGetNum_metaSet_same, hps, get_doc_id_metaSet_rrf, hid, ih2]
    · simp [metaGetNum_metaSet_same, hps, ih2]

/-- The accumulated fusion state from the empty state, for equally long
weight and list sequences: keys of both dicts are the first-seen
identities, the retained object is the first occurrence in a flat scan,
and the accumulated score is the spec-side fused score. -/
theorem fuse_context (k : ℚ) (lists : List (List Document)) (ws : List ℚ)
    (hlen : ws.length = lists.length) :
    (fuseAccum k (ws.zip lists) ([], [])).1.map Prod.fst = firstSeenIds lists ∧
    (fuseAccum k (ws.zip lists) ([], [])).2.map Prod.fst = firstSeenIds lists ∧
    (∀ j, lookupObj (fuseAccum k (ws.zip lists) ([], [])).2 j =
      findDoc lists.flatten j) ∧
    (∀ j, lookupScore (fuseAccum k (ws.zip lists) ([], [])).1 j =
      rrfSpecScore k (ws.zip lists) j) := by
  have hsnd : (ws.zip lists).map Prod.snd = lists :=
    List.map_snd_zip ws lists (le_of_eq hlen.symm)
  refine ⟨?_, ?_, ?_, ?_⟩
  · rw [keys_fuseAccum_scores, hsnd]
    rfl
  · rw [keys_fuseAccum_objs, hsnd]
    rfl
  · intro j
    rw [lookupObj_fuseAccum, hsnd]
    rfl
  · intro j
    rw [lookupScore_fuseAccum]
    simp [lookupScore]

/-- Unfolding `fuse` for a non-empty list of lists and explicit weights. -/
theorem fuse_some_eq (k : ℚ) (lists : List (List Document)) (ws : List ℚ)
    (h : ¬ lists.isEmpty = true) :
    fuse k lists (some ws) =
      (pySortDesc Prod.snd (fuseAccum k (ws.zip lists) ([], [])).1).filterMap
        (attachRRF (fuseAccum k (ws.zip lists) ([], [])).2) := by
  unfold fuse
  rw [if_neg h]
  rfl

/-- Every sorted score item has a retained object, whose identity is the
item's key. -/
theorem fuse_sorted_allsome (k : ℚ) (lists : List (List Document)) (ws : List ℚ)
    (hlen : ws.length = lists.length) :
    ∀ p ∈ pySortDesc Prod.snd (fuseAccum k (ws.zip lists) ([], [])).1,
      ∃ d0, lookupObj (fuseAccum k (ws.zip lists) ([], [])).2 p.1 = some d0 ∧
        get_doc_id d0 = p.1 := by
  obtain ⟨hkS, hkO, hobj, hsc⟩ := fuse_context k lists ws hlen
  intro p hp
  have hp2 : p ∈ (fuseAccum k (ws.zip lists) ([], [])).1 :=
    (pySortDesc_perm _ _).mem_iff.mp hp
  have hkey : p.1 ∈ firstSeenIds lists := by
    rw [← hkS]
    exact List.mem_map_of_mem Prod.fst hp2
  have hmemid : p.1 ∈ lists.flatten.map get_doc_id := by
    rcases (mem_firstSeenAcc [] (lists.flatten.map get_doc_id) p.1).mp hkey with h | h
    · cases h
    · exact h
  obtain ⟨d0, hd0⟩ := findDoc_some_of_mem _ _ hmemid
  exact ⟨d0, by rw [hobj]; exact hd0, findDoc_eq_id _ _ _ hd0⟩

/-- C2: rank fusion scores each distinct identity as the sum over the
weighted lists of `w / (k_rrf + rank)` (rank 1-based) at every rank where
the identity occurs; the output has exactly one passage per distinct input
identity (no duplicates, and every input identity appears); fusing
`[[A], [A]]` with weights 1, 1 and `k_rrf = 60` scores A at `2/61`; and
fusing `[[doc1, doc2], [doc2, doc1]]` yields exactly 2 output passages. -/
theorem c2_rrf_score_and_dedup (k : ℚ) (lists : List (List Document)) (ws : List ℚ)
    (hlen : ws.length = lists.length) (hne : ¬ lists.isEmpty = true) :
    (∀ d ∈ fuse k lists (some ws),
      metaGetNum d.metadata "rrf_score" 0 = rrfSpecScore k (ws.zip lists) (get_doc_id d)) ∧
    ((fuse k lists (some ws)).map get_doc_id).Nodup ∧
    (∀ d0 ∈ lists.flatten, get_doc_id d0 ∈ (fuse k lists (some ws)).map get_doc_id) ∧
    (fuse 60 [[docA], [docA]] (some [1, 1])).map
      (fun d => metaGetNum d.metadata "rrf_score" 0) = [2 / 61] ∧
    (fuse 60 [[docA, docB], [docB2, docA2]] (some [1, 1])).length = 2 := by
  obtain ⟨hkS, hkO, hobj, hsc⟩ := fuse_context k lists ws hlen
  have hall := fuse_sorted_allsome k lists ws hlen
  have hfe := fuse_some_eq k lists ws hne
  have hnodupkeys : ((fuseAccum k (ws.zip lists) ([], [])).1.map Prod.fst).Nodup := by
    rw [hkS]
    exact nodup_firstSeenAcc [] _ List.nodup_nil
  refine ⟨?_, ?_, ?_, ?_, ?_⟩
  · intro d hd
    rw [hfe] at hd
    obtain ⟨p, hp, hap⟩ := List.mem_filterMap.mp hd
    obtain ⟨d0, hd0, hid⟩ := hall p hp
    rw [attachRRF, hd0] at hap
    cases hap
    rw [metaGetNum_metaSet_same, get_doc_id_metaSet_rrf, hid]
    have hmem : p ∈ (fuseAccum k (ws.zip lists) ([], [])).1 :=
      (pySortDesc_perm _ _).mem_iff.mp hp
    rw [← lookupScore_of_mem _ p hnodupkeys hmem, hsc]
  · rw [hfe, out_map_ids _ _ hall]
    exact ((pySortDesc_perm _ _).map Prod.fst).nodup_iff.mpr hnodupkeys
  · intro d0 hd0
    rw [hfe, out_map_ids _ _ hall]
    apply ((pySortDesc_perm _ _).map Prod.fst).mem_iff.mpr
    rw [hkS]
    exact (mem_firstSeenAcc [] _ _).mpr (Or.inr (List.mem_map_of_mem get_doc_id hd0))
  · norm_num [fuse, fuseWeights, fuseAccum, fuseList, bump, addObj, pySortDesc,
      insertDesc, attachRRF, lookupObj, metaSet, metaGetNum, metaLookup,
      get_doc_id, docA, List.filterMap_cons]
  · norm_num [fuse, fuseWeights, fuseAccum, fuseList, bump, addObj, pySortDesc,
      insertDesc, attachRRF, lookupObj, metaSet, metaGetNum, metaLookup,
      get_doc_id, docA, docB, docA2, docB2, List.filterMap_cons]
    decide

/-- C2 witness: the fused score of the single identity at a concrete
input, with the hypotheses discharged. -/
theorem c2_witness :
    (∀ d ∈ fuse 60 [[docA]] (some [1]),
      metaGetNum d.metadata "rrf_score" 0 =
        rrfSpecScore 60 ([1].zip [[docA]]) (get_doc_id d)) ∧
    ((fuse 60 [[docA]] (some [1])).map get_doc_id).Nodup := by
  have h := c2_rrf_score_and_dedup 60 [[docA]] [1] rfl (by decide)
  exact ⟨h.1, h.2.1⟩

/-- C3: fusion output is sorted by descending fused score; passages with
equal fused scores appear in the order their identities were first
encountered scanning the input lists left to right (the restriction of the
output identities to any fixed score value is a sublist of the first-seen
order); the passage object kept for an identity is its first occurrence
(same content, object id and metadata, plus the attached `rrf_score`);
and fusing `[[A, B]]` and `[[B, A]]` with equal weights outputs A before
B. -/
theorem c3_fuse_deterministic_tiebreak (k : ℚ) (lists : List (List Document))
    (ws : List ℚ) (hlen : ws.length = lists.length) (hne : ¬ lists.isEmpty = true) :
    ((fuse k lists (some ws)).map
      (fun d => metaGetNum d.metadata "rrf_score" 0)).Pairwise (fun a b => b ≤ a) ∧
    (∀ s : ℚ, (((fuse k lists (some ws)).filter
        (fun d => decide (metaGetNum d.metadata "rrf_score" 0 = s))).map
          get_doc_id).Sublist (firstSeenIds lists)) ∧
    (∀ d ∈ fuse k lists (some ws), ∃ d0,
      firstOcc lists (get_doc_id d) = some d0 ∧
      d.page_content = d0.page_content ∧ d.oid = d0.oid ∧
      d.metadata = metaSet d0.metadata "rrf_score"
        (MetaVal.mnum (metaGetNum d.metadata "rrf_score" 0))) ∧
    (fuse 60 [[docA, docB], [docB2, docA2]] (some [1, 1])).map Document.page_content =
      ["contentA", "contentB"] := by
  obtain ⟨hkS, hkO, hobj, hsc⟩ := fuse_context k lists ws hlen
  have hall := fuse_sorted_allsome k lists ws hlen
  have hfe := fuse_some_eq k lists ws hne
  refine ⟨?_, ?_, ?_, ?_⟩
  · rw [hfe, out_map_scores _ _ (fun p hp => ⟨(hall p hp).choose, (hall p hp).choose_spec.1⟩)]
    rw [List.pairwise_map]
    exact sorted_pySortDesc Prod.snd _
  · intro s
    rw [hfe, out_filter_ids _ _ s hall, filter_pySortDesc]
    have hsub : ((fuseAccum k (ws.zip lists) ([], [])).1.filter
        (fun p => decide (p.2 = s))).map Prod.fst |>.Sublist
        ((fuseAccum k (ws.zip lists) ([], [])).1.map Prod.fst) :=
      (List.filter_sublist _).map Prod.fst
    rw [hkS] at hsub
    exact hsub
  · intro d hd
    rw [hfe] at hd
    obtain ⟨p, hp, hap⟩ := List.mem_filterMap.mp hd
    obtain ⟨d0, hd0, hid⟩ := hall p hp
    rw [attachRRF, hd0] at hap
    cases hap
    refine ⟨d0, ?_, rfl, rfl, ?_⟩
    · rw [get_doc_id_metaSet_rrf, hid]
      unfold firstOcc
      rw [← hobj p.1]
      exact hd0
    · rw [metaGetNum_metaSet_same]
  · norm_num [fuse, fuseWeights, fuseAccum, fuseList, bump, addObj, pySortDesc,
      insertDesc, attachRRF, lookupObj, metaSet, metaGetNum, metaLookup,
      get_doc_id, docA, docB, docA2, docB2, List.filterMap_cons]
    decide

/-- C3 witness: sortedness and the first-occurrence property at a concrete
input, with the hypotheses discharged. -/
theorem c3_witness :
    ((fuse 60 [[docA]] (some [1])).map
      (fun d => metaGetNum d.metadata "rrf_score" 0)).Pairwise (fun a b => b ≤ a) ∧
    (∀ s : ℚ, (((fuse 60 [[docA]] (some [1])).filter
        (fun d => decide (metaGetNum d.metadata "rrf_score" 0 = s))).map
          get_doc_id).Sublist (firstSeenIds [[docA]])) := by
  have h := c3_fuse_deterministic_tiebreak 60 [[docA]] [1] rfl (by decide)
  exact ⟨h.1, h.2.1⟩

/-- C7: code bug in the hybrid combiner's deduplication.  The spec and
claim require deduplication by passage identity with the two weighted
contributions summed, giving outputs `[A, B, C]` with B scored
`0.7·0 + 0.3·1 = 0.3`.  The code keys its merge dict by
`id(doc.page_content)` — the CPython object identity of the content
string.  The vector hit `vB` and the keyword hit `kB` carry equal content
but distinct string objects (separate fetches), so they never merge: at
the spec's own worked example the code emits 4 passages, with content B
duplicated, instead of 3. -/
theorem c7_combine_results_code_bug :
    vB.page_content = kB.page_content ∧ vB.oid ≠ kB.oid ∧
    (combine_results [(vA, 9 / 10), (vB, 1 / 2)] [(kB, 1), (kC, 1 / 2)]
        (7 / 10) (3 / 10)).map Document.page_content =
      ["contentA", "contentB", "contentB", "contentC"] ∧
    (combine_results [(vA, 9 / 10), (vB, 1 / 2)] [(kB, 1), (kC, 1 / 2)]
        (7 / 10) (3 / 10)).length = 4 := by
  refine ⟨rfl, by decide, ?_, ?_⟩
  · norm_num [combine_results, normalize_scores, pyMax, pyMin, storePut, kwStep,
      pySortDesc, insertDesc, max_def, min_def, vA, vB, kB, kC]
  · norm_num [combine_results, normalize_scores, pyMax, pyMin, storePut, kwStep,
      pySortDesc, insertDesc, max_def, min_def, vA, vB, kB, kC]

/-- The reranking stage emits at most `top_k` documents. -/
theorem rerank_length_le
    (predict : Option (List (String × String) → Except Unit (List ℚ)))
    (query : String) (documents : List Document) (top_k : Nat) :
    (rerank predict query documents top_k).length ≤ top_k := by
  cases predict with
  | none =>
    simp only [rerank]
    rw [List.length_take]
    exact min_le_left _ _
  | some f =>
    simp only [rerank]
    by_cases hemp : documents.isEmpty
    · rw [if_pos hemp, List.length_take]
      exact min_le_left _ _
    · rw [if_neg hemp]
      cases f (documents.map fun d => (query, d.page_content)) with
      | error e =>
        rw [List.length_take]
        exact min_le_left _ _
      | ok scores =>
        rw [List.length_map, List.length_take]
        exact min_le_left _ _

/-- The threshold filter never lengthens its input. -/
theorem filter_by_threshold_length_le (t : ℚ) (docs : List Document) :
    (filter_by_threshold t docs).length ≤ docs.length := by
  unfold filter_by_threshold
  by_cases hemp : (docs.filter
      (fun doc => decide (t ≤ metaGetNum doc.metadata "score" 1))).isEmpty
  · rw [if_pos hemp]
  · rw [if_neg hemp]
    exact List.length_filter_le _ _

/-- The rerank-or-truncate stage emits at most `top_k` documents. -/
theorem rerankStage_length_le (env : Env) (cfg : Settings) (query : String)
    (top_k : Nat) (documents : List Document) :
    (rerankStage env cfg query top_k documents).length ≤ top_k := by
  unfold rerankStage
  by_cases hc : cfg.enable_reranking ∧ ¬ documents.isEmpty = true
  · rw [if_pos hc]
    exact rerank_length_le env.predict query documents top_k
  · rw [if_neg hc, List.length_take]
    exact min_le_left _ _

/-- The threshold stage never lengthens its input. -/
theorem thresholdStage_length_le (cfg : Settings) (documents : List Document) :
    (thresholdStage cfg documents).length ≤ documents.length := by
  unfold thresholdStage
  by_cases hc : 0 < cfg.similarity_threshold
  · rw [if_pos hc]
    exact filter_by_threshold_length_le _ _
  · rw [if_neg hc]

/-- C8: the retrieve pipeline never raises.  For every configuration,
query, strategy string and collaborator behavior — including collaborators
that throw — `retrieve` yields `Except.ok` of a list; if the pipeline body
did surface an exception, the handler would return a bare simple vector
search at the originally requested final size; and the store wrapper
itself converts a throwing client into the empty list rather than an
exception. -/
theorem c8_retrieve_never_raises (env : Env) (cfg : Settings) (query : String)
    (top_k : Option Nat) (strategy : String) :
    (∃ docs, retrieve env cfg query top_k strategy = Except.ok docs) ∧
    (∀ e, retrieveBody env cfg query (pyOrNat top_k cfg.top_k_final)
        cfg.top_k_retrieval strategy = Except.error e →
      retrieve env cfg query top_k strategy =
        Except.ok (simple_retrieve env query (pyOrNat top_k cfg.top_k_final))) ∧
    (∀ q k e, env.innerSearch q k = Except.error e → similarity_search env q k = []) := by
  refine ⟨?_, ?_, ?_⟩
  · cases hb : retrieveBody env cfg query (pyOrNat top_k cfg.top_k_final)
        cfg.top_k_retrieval strategy with
    | ok docs =>
      refine ⟨docs, ?_⟩
      unfold retrieve
      rw [hb]
    | error e =>
      refine ⟨simple_retrieve env query (pyOrNat top_k cfg.top_k_final), ?_⟩
      unfold retrieve
      rw [hb]
  · intro e he
    unfold retrieve
    rw [he]
  · intro q k e he
    unfold similarity_search
    rw [he]

/-- C8 witness: an environment whose collaborators all throw still
produces a list, and its guarded store search returns the empty list. -/
theorem c8_witness :
    (∃ docs, retrieve envThrow cfgHydeOnly "q" (some 3) "simple" = Except.ok docs) ∧
    similarity_search envThrow "q" 3 = [] := by
  obtain ⟨ha, hb, hc⟩ := c8_retrieve_never_raises envThrow cfgHydeOnly "q" (some 3) "simple"
  exact ⟨ha, hc "q" 3 () rfl⟩

/-- C9: whenever the store honors the requested candidate count, the list
returned by `retrieve` has length at most the requested final size
(`top_k` when given and non-zero, else the configured final size), across
all strategies, the reranking-enabled and -disabled paths, and the
exception-fallback path. -/
theorem c9_retrieve_length_le (env : Env) (cfg : Settings) (query : String)
    (top_k : Option Nat) (strategy : String) (docs : List Document)
    (hk : ∀ q k r, env.innerSearch q k = Except.ok r → r.length ≤ k)
    (hr : retrieve env cfg query top_k strategy = Except.ok docs) :
    docs.length ≤ pyOrNat top_k cfg.top_k_final := by
  unfold retrieve at hr
  cases hb : retrieveBody env cfg query (pyOrNat top_k cfg.top_k_final)
      cfg.top_k_retrieval strategy with
  | ok body =>
    rw [hb] at hr
    have hbody : body = thresholdStage cfg
        (rerankStage env cfg query (pyOrNat top_k cfg.top_k_final)
          (strategyDocs env cfg query cfg.top_k_retrieval strategy)) := by
      unfold retrieveBody at hb
      cases hb
      rfl
    injection hr with hr2
    rw [← hr2, hbody]
    exact le_trans (thresholdStage_length_le cfg _) (rerankStage_length_le env cfg query _ _)
  | error e =>
    rw [hb] at hr
    injection hr with hr2
    rw [← hr2]
    unfold simple_retrieve similarity_search
    cases hi : env.innerSearch query (pyOrNat top_k cfg.top_k_final) with
    | ok r => simpa using hk query (pyOrNat top_k cfg.top_k_final) r hi
    | error e2 => simp

/-- C9 witness: the throwing environment honors any requested count
vacuously and the returned list (empty) is within the requested size. -/
theorem c9_witness :
    (([] : List Document)).length ≤ pyOrNat (some 3) cfgHydeOnly.top_k_final := by
  refine c9_retrieve_length_le envThrow cfgHydeOnly "q" (some 3) "simple" []
    (fun q k r h => by cases h) ?_
  rfl
